import Mathlib

/-!
Verification development for the able-vsce language server core.

The definitions below are a shallow embedding of the symbol-extraction
module (`symbols.ts`, given as `src/unnamed/part_001`) and of the
completion dispatch in `server.ts`.  Strings are handled as `List Char`
(JavaScript iterates code points); the JavaScript regular expressions are
embedded as deterministic scanners, which is faithful here because in each
regex the adjacent character classes are disjoint, so the greedy
maximal-munch parse is the unique parse and no backtracking can occur.
-/

namespace Able

/-- The JavaScript whitespace class used by the regexes and by trimming. -/
def isJsSpace (c : Char) : Bool :=
  c = ' ' || c = '\t' || c = '\n' || c = '\r' || c.val = 11 || c.val = 12 ||
  c.val = 160 || c.val = 5760 || (8192 ≤ c.val && c.val ≤ 8202) ||
  c.val = 8232 || c.val = 8233 || c.val = 8239 || c.val = 8287 ||
  c.val = 12288 || c.val = 65279

/-- The character class at the start of an identifier: part of the regex
character class written in the source as capital A to Z, small a to z and
the low line character. -/
def isIdStart (c : Char) : Bool :=
  ('A' ≤ c && c ≤ 'Z') || ('a' ≤ c && c ≤ 'z') || c = '_'

/-- The character class continuing an identifier: also digits. -/
def isIdCont (c : Char) : Bool :=
  isIdStart c || ('0' ≤ c && c ≤ '9')

/-- Skip the longest run of whitespace: the anchored greedy star of the
whitespace class. -/
def dropSpaces (l : List Char) : List Char := l.dropWhile isJsSpace

/-- Match a literal character sequence, returning the remainder. -/
def matchLit : List Char → List Char → Option (List Char)
  | [], l => some l
  | _ :: _, [] => none
  | c :: cs, d :: ds => if d = c then matchLit cs ds else none

/-- Match at least one whitespace character, then skip the rest of the
whitespace run: the greedy plus of the whitespace class. -/
def matchSpaces1 : List Char → Option (List Char)
  | [] => none
  | c :: rest => if isJsSpace c then some (dropSpaces rest) else none

/-- Match one identifier: an identifier-start character followed by the
longest run of identifier-continuation characters. -/
def matchIdent : List Char → Option (String × List Char)
  | [] => none
  | c :: rest =>
      if isIdStart c then
        some ((c :: rest.takeWhile isIdCont).asString, rest.dropWhile isIdCont)
      else none

/-- Leading width for `getIndentLevel`: each space counting 1 and each with each space counts 1 and each
tab counts 4, stopping at the first other character. -/
def leadingWidth : List Char → Nat
  | [] => 0
  | c :: rest =>
      if c = ' ' then 1 + leadingWidth rest
      else if c = '\t' then 4 + leadingWidth rest
      else 0

/-- The function `getIndentLevel` from the source: `Math.floor((width + 2) / 4)`. -/
def getIndentLevel (line : List Char) : Nat :=
  (leadingWidth line + 2) / 4

/-- The character loop of `stripLineComment`.  State: inside a string,
escape pending, inside a block comment. -/
def stripLoop (inString escaped bc : Bool) : List Char → List Char × Bool
  | [] => ([], bc)
  | [c] =>
      if bc then ([], bc)
      else if c = '#' && !inString then ([], bc)
      else ([c], bc)
  | c :: d :: rest =>
      if c = '#' && d = '#' && !inString && !escaped then
        stripLoop inString escaped (!bc) rest
      else if bc then
        stripLoop inString escaped bc (d :: rest)
      else if c = '#' && !inString then
        ([], bc)
      else if c = '\\' && !escaped then
        let r := stripLoop inString true bc (d :: rest)
        (c :: r.1, r.2)
      else
        let inString' := if c = '"' && !escaped then !inString else inString
        let r := stripLoop inString' false bc (d :: rest)
        (c :: r.1, r.2)

/-- The function `stripLineComment` from the source: strip comments from one line,
threading the block-comment flag. -/
def stripLineComment (line : List Char) (inBlockComment : Bool) :
    List Char × Bool :=
  stripLoop false false inBlockComment line

/-- Split the text at line terminators, as `text.split(/\r?\n/)` does: a
line feed optionally preceded by one carriage return ends a line. -/
def splitLines : List Char → List (List Char)
  | [] => [[]]
  | '\n' :: rest => [] :: splitLines rest
  | '\r' :: '\n' :: rest => [] :: splitLines rest
  | c :: rest =>
      match splitLines rest with
      | line :: more => (c :: line) :: more
      | [] => [[c]]

/-- Try the bare-identifier key pattern at the current position: an
identifier, optional whitespace, then a colon.  Returns the key and the
remainder after the colon. -/
def idKeyAt : List Char → Option (String × List Char)
  | [] => none
  | c :: rest =>
      if isIdStart c then
        match (rest.dropWhile isIdCont).dropWhile isJsSpace with
        | ':' :: r3 => some ((c :: rest.takeWhile isIdCont).asString, r3)
        | _ => none
      else none

/-- Global scan with the bare-identifier key regex: try each position left
to right, resuming after the end of each match.  The fuel argument is the
text length; one unit is spent per step and each step consumes at least
one character, so the scan is never cut short. -/
def scanIdKeys : Nat → List Char → List String
  | 0, _ => []
  | _ + 1, [] => []
  | fuel + 1, c :: rest =>
      match idKeyAt (c :: rest) with
      | some (k, after) => k :: scanIdKeys fuel after
      | none => scanIdKeys fuel rest

/-- Try the quoted-string key pattern at the current position: a double
quote, at least one non-quote character, a double quote, optional
whitespace, then a colon. -/
def strKeyAt : List Char → Option (String × List Char)
  | [] => none
  | c :: rest =>
      if c = '"' then
        match rest.dropWhile (fun d => d ≠ '"') with
        | '"' :: r2 =>
            if rest.takeWhile (fun d => d ≠ '"') = [] then none
            else
              match r2.dropWhile isJsSpace with
              | ':' :: r3 => some ((rest.takeWhile (fun d => d ≠ '"')).asString, r3)
              | _ => none
        | _ => none
      else none

/-- Global scan with the quoted-string key regex. -/
def scanStrKeys : Nat → List Char → List String
  | 0, _ => []
  | _ + 1, [] => []
  | fuel + 1, c :: rest =>
      match strKeyAt (c :: rest) with
      | some (k, after) => k :: scanStrKeys fuel after
      | none => scanStrKeys fuel rest

/-- The function `extractObjectKeys` from the source: all bare-identifier keys found by
the first global regex, then all quoted-string keys found by the second. -/
def extractObjectKeys (text : List Char) : List String :=
  scanIdKeys text.length text ++ scanStrKeys text.length text

/-- The class-declaration regex: anchored whitespace, the word written
c-l-a-s-s, at least one whitespace, an identifier. -/
def classMatch (l : List Char) : Option String :=
  match matchLit ['c', 'l', 'a', 's', 's'] (dropSpaces l) with
  | none => none
  | some l1 =>
      match matchSpaces1 l1 with
      | none => none
      | some l2 =>
          match matchIdent l2 with
          | none => none
          | some (name, _) => some name

/-- The function-declaration regex: anchored whitespace, an optional async
modifier word followed by whitespace, the declaration word written f-u-n,
at least one whitespace, an identifier.  When the modifier word matches
but no whitespace follows it, the optional group backtracks to empty and
the declaration word is required at the original position, where it cannot
match; this mirrors the regex exactly. -/
def funMatch (l : List Char) : Option String :=
  let l1 := dropSpaces l
  let l2 :=
    match matchLit ['a', 's', 'y', 'n', 'c'] l1 with
    | some r =>
        match matchSpaces1 r with
        | some r2 => r2
        | none => l1
    | none => l1
  match matchLit ['f', 'u', 'n'] l2 with
  | some r3 =>
      match matchSpaces1 r3 with
      | some r4 => (matchIdent r4).map (fun p => p.1)
      | none => none
  | none => none

/-- The constructor-style assignment regex: identifier, equals sign,
identifier, opening parenthesis, with optional whitespace between. -/
def classAssignMatch (l : List Char) : Option (String × String) :=
  match matchIdent (dropSpaces l) with
  | none => none
  | some (lhs, r1) =>
      match matchLit ['='] (dropSpaces r1) with
      | none => none
      | some r2 =>
          match matchIdent (dropSpaces r2) with
          | none => none
          | some (rhs, r3) =>
              match matchLit ['('] (dropSpaces r3) with
              | none => none
              | some _ => some (lhs, rhs)

/-- The object-literal start regex: identifier, equals sign, opening
brace, with optional whitespace between. -/
def objectStartMatch (l : List Char) : Option String :=
  match matchIdent (dropSpaces l) with
  | none => none
  | some (lhs, r1) =>
      match matchLit ['='] (dropSpaces r1) with
      | none => none
      | some r2 =>
          match matchLit ['\x7b'] (dropSpaces r2) with
          | none => none
          | some _ => some lhs

/-- The plain assignment regex: identifier then an equals sign, with
optional whitespace between. -/
def varMatch (l : List Char) : Option String :=
  match matchIdent (dropSpaces l) with
  | none => none
  | some (lhs, r1) =>
      match matchLit ['='] (dropSpaces r1) with
      | none => none
      | some _ => some lhs

/-- The symbol table of one module, with the JavaScript sets and maps
modelled as insertion-ordered lists and association lists. -/
structure SymbolSet where
  functions : List String
  classes : List String
  «variables» : List String
  classMethods : List (String × List String)
  variableTypes : List (String × String)
  objectProperties : List (String × List String)
deriving Repr, DecidableEq

/-- The function `emptySymbols` from the source. -/
def emptySymbols : SymbolSet :=
  { functions := [], classes := [], «variables» := [],
    classMethods := [], variableTypes := [], objectProperties := [] }

/-- JavaScript `Set.add`: append if not already present. -/
def setAdd (s : List String) (x : String) : List String :=
  if x ∈ s then s else s ++ [x]

/-- JavaScript `Map.get`: the value of the first binding of the key. -/
def mapFind (k : String) : List (String × α) → Option α
  | [] => none
  | (k', v) :: rest => if k' = k then some v else mapFind k rest

/-- JavaScript `Map.set`: replace the binding in place if the key is
present, otherwise append a new binding. -/
def mapSet (k : String) (v : α) : List (String × α) → List (String × α)
  | [] => [(k, v)]
  | (k', v') :: rest =>
      if k' = k then (k, v) :: rest else (k', v') :: mapSet k v rest

/-- The function `addSymbol` from the source: fetch or create the bucket for the key
and add the value to it. -/
def addSymbol (m : List (String × List String)) (k v : String) :
    List (String × List String) :=
  match mapFind k m with
  | some bucket => mapSet k (setAdd bucket v) m
  | none => m ++ [(k, setAdd [] v)]

/-- The state threaded through the line loop of `parseSymbols`.  The class
stack keeps its top at the head. -/
structure ParseState where
  symbols : SymbolSet
  classStack : List (String × Nat)
  activeObject : Option (String × Nat)
  inBlockComment : Bool
deriving Repr, DecidableEq

/-- The dedent loop: pop every class whose declaration indent is at least
the current line's indent. -/
def popWhile (indent : Nat) : List (String × Nat) → List (String × Nat)
  | [] => []
  | e :: rest => if indent ≤ e.2 then popWhile indent rest else e :: rest

/-- One iteration of the line loop of `parseSymbols`. -/
def processLine (st : ParseState) (line : List Char) : ParseState :=
  let stripped := stripLineComment line st.inBlockComment
  let content := stripped.1
  let bc := stripped.2
  if content.all isJsSpace then
    { st with inBlockComment := bc }
  else
    let indent := getIndentLevel content
    let stack := popWhile indent st.classStack
    match classMatch content with
    | some name =>
        { symbols := { st.symbols with classes := setAdd st.symbols.classes name },
          classStack := (name, indent) :: stack,
          activeObject := st.activeObject,
          inBlockComment := bc }
    | none =>
        match funMatch content with
        | some name =>
            let syms :=
              match stack with
              | (owner, _) :: _ =>
                  { st.symbols with
                      classMethods := addSymbol st.symbols.classMethods owner name }
              | [] =>
                  { st.symbols with functions := setAdd st.symbols.functions name }
            { symbols := syms, classStack := stack,
              activeObject := st.activeObject, inBlockComment := bc }
        | none =>
            let syms1 :=
              match classAssignMatch content with
              | some (lhs, rhs) =>
                  if indent = 0 then
                    { st.symbols with
                        variableTypes := mapSet lhs rhs st.symbols.variableTypes }
                  else st.symbols
              | none => st.symbols
            let objStart := objectStartMatch content
            let active1 :=
              match objStart with
              | some name => some (name, indent)
              | none => st.activeObject
            let step2 :=
              match active1 with
              | some (name, aIndent) =>
                  let syms' :=
                    { syms1 with
                        objectProperties :=
                          (extractObjectKeys content).foldl
                            (fun m k => addSymbol m name k)
                            syms1.objectProperties }
                  if content.contains '\x7d' then (syms', none)
                  else if indent ≤ aIndent && objStart.isNone then (syms', none)
                  else (syms', some (name, aIndent))
              | none => (syms1, none)
            let syms3 :=
              match varMatch content with
              | some lhs =>
                  if indent = 0 then
                    { step2.1 with «variables» := setAdd step2.1.«variables» lhs }
                  else step2.1
              | none => step2.1
            { symbols := syms3, classStack := stack,
              activeObject := step2.2, inBlockComment := bc }

/-- The initial state of the line loop. -/
def initialState : ParseState :=
  { symbols := emptySymbols, classStack := [], activeObject := none,
    inBlockComment := false }

/-- The function `parseSymbols` from the source: split into lines and fold the line
processor over them. -/
def parseSymbols (text : String) : SymbolSet :=
  ((splitLines text.data).foldl processLine initialState).symbols

/-- The function `mergeSymbols` from the source: union functions, classes, variables
and class methods into the target (variable types and object properties
are deliberately not merged there). -/
def mergeSymbols (target source : SymbolSet) : SymbolSet :=
  { target with
      functions := source.functions.foldl setAdd target.functions,
      classes := source.classes.foldl setAdd target.classes,
      «variables» := source.«variables».foldl setAdd target.«variables»,
      classMethods :=
        source.classMethods.foldl
          (fun m e => e.2.foldl (fun m' v => addSymbol m' e.1 v) m)
          target.classMethods }

/-- The function `getMemberCandidates` from the source.  The truthiness test on the
variable-type lookup is kept: an empty-string value falls through to the
class-name check, exactly as the JavaScript or-expression does. -/
def getMemberCandidates (symbols : SymbolSet) (target : String) :
    List String × List String :=
  let fromTypes :=
    match mapFind target symbols.variableTypes with
    | some c => if c = "" then none else some c
    | none => none
  let className :=
    match fromTypes with
    | some c => some c
    | none => if target ∈ symbols.classes then some target else none
  let methods :=
    match className with
    | some c => (mapFind c symbols.classMethods).getD []
    | none => []
  let properties := (mapFind target symbols.objectProperties).getD []
  (methods, properties)

/-- Completion item categories used by the server. -/
inductive ItemKind where
  | keyword
  | classKind
  | functionKind
  | variableKind
  | methodKind
  | propertyKind
  | moduleKind
deriving Repr, DecidableEq

/-- A completion item: a label and a category tag. -/
structure CompletionItem where
  label : String
  kind : ItemKind
deriving Repr, DecidableEq

/-- The static builtin function names from the server. -/
def BUILTIN_FUNCTIONS : List String :=
  ["pr", "input", "type", "type_name", "len", "bool", "int", "float", "str",
   "list", "dict", "range", "register_modifier", "register_decorator",
   "server_listen", "json_stringify", "json_parse", "read_text_file",
   "string_trim", "string_split", "string_join", "string_replace",
   "string_contains", "string_starts_with", "string_ends_with",
   "string_lower", "string_upper"]

/-- The static builtin type names from the server. -/
def BUILTIN_TYPES : List String :=
  ["Number", "String", "Boolean", "List", "Object", "Function",
   "BoundMethod", "Type", "Instance", "Null", "Undefined", "Promise"]

/-- The static builtin keywords from the server. -/
def BUILTIN_KEYWORDS : List String :=
  ["if", "elif", "else", "for", "of", "while", "break", "continue",
   "return", "async", "await", "class", "fun", "import", "from", "as",
   "true", "false", "null", "and", "or", "not", "is"]

/-- The static builtin module names from the server. -/
def BUILTIN_MODULES : List String :=
  ["api", "builtins", "math", "path", "random", "server", "string", "time"]

/-- The static builtin decorator names from the server. -/
def BUILTIN_DECORATORS : List String :=
  ["Route", "Get", "Post", "Put", "Patch", "Delete", "Head", "Options", "Use"]

/-- JavaScript `startsWith`. -/
def strStarts (s pfx : String) : Bool := pfx.data.isPrefixOf s.data

/-- The loop of `toCompletionItems`, carrying the set of labels seen so
far; empty labels are skipped by the falsiness test in the source. -/
def toItemsGo (kind : ItemKind) (seen : List String) :
    List String → List CompletionItem
  | [] => []
  | x :: rest =>
      if x = "" ∨ x ∈ seen then toItemsGo kind seen rest
      else { label := x, kind := kind } :: toItemsGo kind (x :: seen) rest

/-- The function `toCompletionItems` from the server: deduplicate by label, drop empty
labels, tag every item with the given kind. -/
def toCompletionItems (items : List String) (kind : ItemKind) :
    List CompletionItem :=
  toItemsGo kind [] items

/-- The module index: dotted module name to symbol table, as an
insertion-ordered association list. -/
abbrev ModuleIndex := List (String × SymbolSet)

/-- The function `gatherWorkspaceSymbols` from the server: merge every indexed table. -/
def gatherWorkspaceSymbols (index : ModuleIndex) : SymbolSet :=
  index.foldl (fun acc e => mergeSymbols acc e.2) emptySymbols

/-- The function `getMemberCompletions` from the server: method items then property
items for the target, from the current document's module entry. -/
def getMemberCompletions (target : String) (entry : Option SymbolSet) :
    List CompletionItem :=
  match entry with
  | none => []
  | some syms =>
      let cands := getMemberCandidates syms target
      toCompletionItems cands.1 ItemKind.methodKind ++
        toCompletionItems cands.2 ItemKind.propertyKind

/-- The function `getImportCompletions` from the server: the builtin module names plus
every indexed module name, filtered by the typed path, tagged as
modules. -/
def getImportCompletions (pfx : String) (index : ModuleIndex) :
    List CompletionItem :=
  let modules :=
    index.foldl (fun acc e => setAdd acc e.1) (BUILTIN_MODULES.foldl setAdd [])
  toCompletionItems (modules.filter (fun m => strStarts m pfx))
    ItemKind.moduleKind

/-- The function `getModuleExports` from the server: functions, classes and top-level
variables of the named module, or nothing when the module is not
indexed. -/
def getModuleExports (index : ModuleIndex) (moduleName : String) :
    List CompletionItem :=
  match mapFind moduleName index with
  | none => []
  | some syms =>
      toCompletionItems syms.functions ItemKind.functionKind ++
        toCompletionItems syms.classes ItemKind.classKind ++
        toCompletionItems syms.«variables» ItemKind.variableKind

/-- The function `getFromImportCompletions` from the server: exports, filtered by the
partial item if one is present. -/
def getFromImportCompletions (index : ModuleIndex)
    (moduleName pfx : String) : List CompletionItem :=
  let exports := getModuleExports index moduleName
  if pfx = "" then exports
  else exports.filter (fun item => strStarts item.label pfx)

/-- Drop characters until one that can start an identifier; used to model
where the leftmost match of the member-access regex begins inside the
trailing identifier-character run. -/
def dropUntilIdStart : List Char → List Char
  | [] => []
  | c :: rest => if isIdStart c then c :: rest else dropUntilIdStart rest

/-- The member-access regex: the line ends with a dot immediately preceded
by an identifier.  The capture is the trailing run of identifier
characters, shortened from the left to the first character that may start
an identifier (the leftmost match). -/
def memberTarget (line : List Char) : Option String :=
  match line.reverse with
  | '.' :: revRest =>
      match dropUntilIdStart (revRest.takeWhile isIdCont).reverse with
      | [] => none
      | c :: cs => some ((c :: cs).asString)
  | _ => none

/-- The decorator regex: anchored whitespace, a commercial at, then only
identifier characters up to the end of the line. -/
def decoratorMatch (line : List Char) : Option String :=
  match dropSpaces line with
  | '@' :: rest => if rest.all isIdCont then some rest.asString else none
  | _ => none

/-- The dotted-path character class of the import regexes. -/
def isModChar (c : Char) : Bool := isIdCont c || c = '.'

/-- The import-list character class of the from-import regex. -/
def isListChar (c : Char) : Bool := isIdCont c || c = ',' || isJsSpace c

/-- The import regex: anchored whitespace, the word written i-m-p-o-r-t,
at least one whitespace, then only dotted-path characters to the end. -/
def importMatch (line : List Char) : Option String :=
  match matchLit ['i', 'm', 'p', 'o', 'r', 't'] (dropSpaces line) with
  | none => none
  | some l2 =>
      match matchSpaces1 l2 with
      | none => none
      | some l3 => if l3.all isModChar then some l3.asString else none

/-- The from-import regex: anchored whitespace, the word written f-r-o-m,
whitespace, a non-empty dotted path, whitespace, the word written
i-m-p-o-r-t, whitespace, then only import-list characters to the end. -/
def fromMatch (line : List Char) : Option (String × String) :=
  match matchLit ['f', 'r', 'o', 'm'] (dropSpaces line) with
  | none => none
  | some l2 =>
      match matchSpaces1 l2 with
      | none => none
      | some l3 =>
          if l3.takeWhile isModChar = [] then none
          else
            match matchSpaces1 (l3.dropWhile isModChar) with
            | none => none
            | some l5 =>
                match matchLit ['i', 'm', 'p', 'o', 'r', 't'] l5 with
                | none => none
                | some l6 =>
                    match matchSpaces1 l6 with
                    | none => none
                    | some l7 =>
                        if l7.all isListChar then
                          some ((l3.takeWhile isModChar).asString, l7.asString)
                        else none

/-- Split at commas, as JavaScript `split` with a comma does. -/
def splitComma : List Char → List (List Char)
  | [] => [[]]
  | ',' :: rest => [] :: splitComma rest
  | c :: rest =>
      match splitComma rest with
      | p :: more => (c :: p) :: more
      | [] => [[c]]

/-- JavaScript `trim`: drop whitespace from both ends. -/
def jsTrim (l : List Char) : List Char :=
  ((l.dropWhile isJsSpace).reverse.dropWhile isJsSpace).reverse

/-- The partial last item of a from-import list: the text after the final
comma, trimmed. -/
def lastImportItem (importList : String) : String :=
  (jsTrim ((splitComma importList.data).getLastD [])).asString

/-- The completion dispatch of the server's request handler: member
access, then decorator, then import, then from-import, then the generic
fallback.  The line text up to the cursor, the current document's module
entry and the module index are the data the handler reads. -/
def onCompletion (lineText : List Char) (entry : Option SymbolSet)
    (index : ModuleIndex) : List CompletionItem :=
  let memberResult :=
    match memberTarget lineText with
    | some t => getMemberCompletions t entry
    | none => []
  if 0 < memberResult.length then memberResult
  else
    match decoratorMatch lineText with
    | some pfx =>
        toCompletionItems (BUILTIN_DECORATORS.filter (fun n => strStarts n pfx))
          ItemKind.functionKind
    | none =>
        match importMatch lineText with
        | some pfx => getImportCompletions pfx index
        | none =>
            match fromMatch lineText with
            | some (moduleName, importList) =>
                getFromImportCompletions index moduleName
                  (lastImportItem importList)
            | none =>
                let localSymbols := gatherWorkspaceSymbols index
                toCompletionItems BUILTIN_KEYWORDS ItemKind.keyword ++
                  toCompletionItems BUILTIN_TYPES ItemKind.classKind ++
                  toCompletionItems BUILTIN_FUNCTIONS ItemKind.functionKind ++
                  toCompletionItems localSymbols.functions ItemKind.functionKind ++
                  toCompletionItems localSymbols.classes ItemKind.classKind ++
                  toCompletionItems localSymbols.«variables» ItemKind.variableKind

/-- Modelled from the spec's words: divide the leading width by 4 and
round to the nearest integer, with ties rounding up. -/
def specRoundNearestTiesUp (w : Nat) : Nat :=
  if 2 ≤ w % 4 then w / 4 + 1 else w / 4

/-- Class stacks arising in a run of the parser: the declaration indents
strictly decrease from the top (head) of the stack downwards. -/
def StackOrdered (s : List (String × Nat)) : Prop :=
  s.Pairwise (fun e e' => e'.2 < e.2)

/-- Every value of every bucket of the map is a non-empty name. -/
def NonEmptyBuckets (m : List (String × List String)) : Prop :=
  ∀ e ∈ m, ∀ v ∈ e.2, v ≠ ""

/-- The invariant maintained by the parser: no empty method name and no
empty property key in the table. -/
def TableNonEmpty (s : SymbolSet) : Prop :=
  NonEmptyBuckets s.classMethods ∧ NonEmptyBuckets s.objectProperties

/-! ### Helper lemmas about the embedded matchers -/

theorem matchLit_some_cons {a : Char} {as l r : List Char}
    (h : matchLit (a :: as) l = some r) :
    ∃ t, l = a :: t ∧ matchLit as t = some r := by
  cases l with
  | nil => simp [matchLit] at h
  | cons d ds =>
      rw [matchLit] at h
      by_cases hd : d = a
      · subst hd
        rw [if_pos rfl] at h
        exact ⟨ds, rfl, h⟩
      · rw [if_neg hd] at h
        exact absurd h (by simp)

theorem matchLit_suffix {lit l r : List Char} (h : matchLit lit l = some r) :
    r <:+ l := by
  induction lit generalizing l with
  | nil => rw [matchLit] at h; cases h; exact List.suffix_refl r
  | cons a as ih =>
      obtain ⟨t, rfl, ht⟩ := matchLit_some_cons h
      exact (ih ht).trans (List.suffix_cons a t)

theorem matchSpaces1_some {l r : List Char} (h : matchSpaces1 l = some r) :
    ∃ c t, l = c :: t ∧ isJsSpace c = true ∧ r = dropSpaces t := by
  cases l with
  | nil => simp [matchSpaces1] at h
  | cons c t =>
      rw [matchSpaces1] at h
      by_cases hc : isJsSpace c
      · rw [if_pos hc] at h
        cases h
        exact ⟨c, t, rfl, hc, rfl⟩
      · rw [if_neg hc] at h
        exact absurd h (by simp)

theorem dropSpaces_suffix (l : List Char) : dropSpaces l <:+ l :=
  List.dropWhile_suffix isJsSpace

theorem matchSpaces1_suffix {l r : List Char} (h : matchSpaces1 l = some r) :
    r <:+ l := by
  obtain ⟨c, t, rfl, _, rfl⟩ := matchSpaces1_some h
  exact (dropSpaces_suffix t).trans (List.suffix_cons c t)

theorem matchIdent_some {l : List Char} {n : String} {r : List Char}
    (h : matchIdent l = some (n, r)) :
    ∃ c t, l = c :: t ∧ isIdStart c = true := by
  cases l with
  | nil => simp [matchIdent] at h
  | cons c t =>
      rw [matchIdent] at h
      by_cases hc : isIdStart c
      · exact ⟨c, t, rfl, hc⟩
      · rw [if_neg (by simpa using hc)] at h
        exact absurd h (by simp)

end Able

namespace Able

example : stripLineComment "a\\#b".data false = ("a\\".data, false) := by decide

example : stripLineComment "a ## b ## c".data false = ("a  c".data, false) := by decide

example : stripLineComment "x ## y".data false = ("x ".data, true) := by decide

example : stripLineComment "say \"hi # there\" # c".data false = ("say \"hi # there\" ".data, false) := by decide

example : extractObjectKeys "    url: \"http://example\",".data = ["url", "http"] := by decide

example : extractObjectKeys "    host: \"localhost\",".data = ["host"] := by decide

example : extractObjectKeys "    \"port\": 8080,".data = ["port"] := by decide

example : memberTarget "import ma.".data = some "ma" := by decide

example : memberTarget "  user.".data = some "user" := by decide

example : memberTarget "x = 9ab.".data = some "ab" := by decide

example : memberTarget "from m import a".data = none := by decide

example : importMatch "import ma".data = some "ma" := by decide

example : fromMatch "from math import si".data = some ("math", "si") := by decide

example : decoratorMatch "  @Ro".data = some "Ro" := by decide

example :
    parseSymbols "\nclass User:\n    fun name(this):\n        return \"ok\"\n\nfun greet():\n    return \"hi\"\n\nuser = User()\nconfig = \x7b\n    host: \"localhost\",\n    \"port\": 8080,\n\x7d\n" =
      { functions := ["greet"], classes := ["User"],
        «variables» := ["user", "config"],
        classMethods := [("User", ["name"])],
        variableTypes := [("user", "User")],
        objectProperties := [("config", ["host", "port"])] } := by decide

end Able

namespace Able

/-! ### Branch-exclusion lemmas: which line patterns rule out which -/

theorem funMatch_first_char {l : List Char} {n : String}
    (h : funMatch l = some n) :
    ∃ t, dropSpaces l = 'a' :: t ∨ dropSpaces l = 'f' :: t := by
  rw [funMatch] at h
  rcases ha : matchLit ['a', 's', 'y', 'n', 'c'] (dropSpaces l) with _ | r
  · rw [ha] at h
    rcases hf : matchLit ['f', 'u', 'n'] (dropSpaces l) with _ | r3
    · rw [hf] at h; exact absurd h (by simp)
    · obtain ⟨t, ht, _⟩ := matchLit_some_cons hf
      exact ⟨t, Or.inr ht⟩
  · obtain ⟨t, ht, _⟩ := matchLit_some_cons ha
    exact ⟨t, Or.inl ht⟩

theorem funMatch_classMatch_none {l : List Char} {n : String}
    (h : funMatch l = some n) : classMatch l = none := by
  obtain ⟨t, ht | ht⟩ := funMatch_first_char h <;>
    simp [classMatch, ht, matchLit]

theorem classAssignMatch_varMatch {l : List Char} {a b : String}
    (h : classAssignMatch l = some (a, b)) : varMatch l = some a := by
  rw [classAssignMatch] at h
  split at h
  · exact absurd h (by simp)
  next lhs r1 h1 =>
    split at h
    · exact absurd h (by simp)
    next r2 h2 =>
      split at h
      · exact absurd h (by simp)
      next rhs r3 h3 =>
        split at h
        · exact absurd h (by simp)
        next r4 h4 =>
          simp only [Option.some.injEq, Prod.mk.injEq] at h
          simp [varMatch, h1, h2, h.1]

theorem classAssignMatch_objectStart_none {l : List Char} {a b : String}
    (h : classAssignMatch l = some (a, b)) : objectStartMatch l = none := by
  rw [classAssignMatch] at h
  split at h
  · exact absurd h (by simp)
  next lhs r1 h1 =>
    split at h
    · exact absurd h (by simp)
    next r2 h2 =>
      split at h
      · exact absurd h (by simp)
      next rhs r3 h3 =>
        obtain ⟨c, t, hct, hstart⟩ := matchIdent_some h3
        have hne : c ≠ '\x7b' := by
          intro hh
          rw [hh] at hstart
          exact absurd hstart (by decide)
        simp [objectStartMatch, h1, h2, hct, matchLit, hne]

/-! ### The spec's rounding rule, for comparison with the source -/

/-- C6: for every line, the computed indent level is the leading
whitespace width (spaces count 1, tabs count 4, stopping at the first
other character) divided by 4 and rounded to the nearest integer with
ties rounding up; the source's floor of (width + 2) / 4 coincides with
round-half-up of width / 4. -/
theorem c6_indent_round_half_up (line : List Char) :
    getIndentLevel line = specRoundNearestTiesUp (leadingWidth line) := by
  rw [getIndentLevel, specRoundNearestTiesUp]
  split <;> omega

/-- C8: parseSymbols is deterministic: two invocations on the same text
yield identical symbol tables, component by component. -/
theorem c8_parse_deterministic (text : String) :
    parseSymbols text = parseSymbols text ∧
    (parseSymbols text).functions = (parseSymbols text).functions ∧
    (parseSymbols text).classes = (parseSymbols text).classes ∧
    (parseSymbols text).«variables» = (parseSymbols text).«variables» ∧
    (parseSymbols text).classMethods = (parseSymbols text).classMethods ∧
    (parseSymbols text).variableTypes = (parseSymbols text).variableTypes ∧
    (parseSymbols text).objectProperties = (parseSymbols text).objectProperties :=
  ⟨rfl, rfl, rfl, rfl, rfl, rfl, rfl⟩

/-- C3, counterexample: the claim says an escape suppresses the
comment-starting effect of a single line-comment marker, so the line
backslash-hash-b should pass through unchanged; the code instead cuts the
line at the hash, because the line-comment test never consults the escape
flag. -/
theorem c3_counterexample :
    stripLineComment ('\\' :: '#' :: 'b' :: []) false = (['\\'], false) ∧
    stripLineComment ('\\' :: '#' :: 'b' :: []) false ≠
      (('\\' :: '#' :: 'b' :: []), false) := by
  decide

/-- C3, amended: a backslash sets a one-character escape flag; the flag
suppresses the block-comment toggle of an immediately following double
marker and the quote toggle of an immediately following double quote, but
it does not suppress the single-marker line comment: outside a string, a
hash immediately following an unconsumed backslash still discards the
remainder of the line (without entering block-comment mode). -/
theorem c3_amended_escape_behaviour (rest : List Char) (inString : Bool) :
    (stripLoop inString false false ('\\' :: rest) =
      ('\\' :: (stripLoop inString true false rest).1,
        (stripLoop inString true false rest).2)) ∧
    (stripLoop false true false ('"' :: rest) =
      ('"' :: (stripLoop false false false rest).1,
        (stripLoop false false false rest).2)) ∧
    (stripLoop false true false ('#' :: rest) = ([], false)) ∧
    (stripLoop false false false ('#' :: '#' :: rest) =
      stripLoop false false true rest) := by
  refine ⟨?_, ?_, ?_, ?_⟩
  · cases rest <;> simp [stripLoop]
  · cases rest <;> simp [stripLoop]
  · cases rest <;> simp [stripLoop]
  · simp [stripLoop]

/-- C10: while an object literal is active, key extraction applies to the
whole normalized line, not only to syntactic key positions: on the line
containing url-colon and an address inside a preserved string value, both
the key and the spurious in-string identifier before a colon are
extracted, and both land in the active object's property set. -/
theorem c10_keys_from_string_contents :
    extractObjectKeys ("    url: \"http://example\",".data) = ["url", "http"] ∧
    mapFind "cfg"
      (parseSymbols "cfg = \x7b\n    url: \"http://example\",\n\x7d").objectProperties =
      some ["url", "http"] := by
  decide

end Able

namespace Able

/-- C4, counterexample: the claim says a constructor-style assignment at
indent 0 triggers only the variable-type rule; on the input where x is
assigned a call of C, the code records the type and also records x among
the plain top-level variables, because the constructor-assignment branch
does not stop the line. -/
theorem c4_counterexample :
    (parseSymbols "x = C()").variableTypes = [("x", "C")] ∧
    (parseSymbols "x = C()").«variables» = ["x"] := by
  decide

/-- C4, amended: the class-declaration and function-declaration rules each
stop the line and so exclude all later rules; the later rules do not stop
the line: in particular a constructor-style assignment at indent 0 (with
no active object) updates both the variable-type map and the top-level
variable set, and nothing else. -/
theorem c4_amended (st : ParseState) (line content : List Char)
    (hcontent : (stripLineComment line st.inBlockComment).1 = content)
    (hnb : content.all isJsSpace = false) :
    (∀ n, classMatch content = some n →
      (processLine st line).symbols =
        { st.symbols with classes := setAdd st.symbols.classes n } ∧
      (processLine st line).activeObject = st.activeObject) ∧
    (∀ n, classMatch content = none → funMatch content = some n →
      (processLine st line).symbols.classes = st.symbols.classes ∧
      (processLine st line).symbols.«variables» = st.symbols.«variables» ∧
      (processLine st line).symbols.variableTypes = st.symbols.variableTypes ∧
      (processLine st line).symbols.objectProperties =
        st.symbols.objectProperties ∧
      (processLine st line).activeObject = st.activeObject) ∧
    (∀ a b, classMatch content = none → funMatch content = none →
      classAssignMatch content = some (a, b) →
      getIndentLevel content = 0 → st.activeObject = none →
      (processLine st line).symbols =
        { st.symbols with
            variableTypes := mapSet a b st.symbols.variableTypes,
            «variables» := setAdd st.symbols.«variables» a } ∧
      (processLine st line).activeObject = none) := by
  refine ⟨?_, ?_, ?_⟩
  · intro n hclass
    simp [processLine, hcontent, hnb, hclass]
  · intro n hclass hfun
    rcases hstack : popWhile (getIndentLevel content) st.classStack with _ | ⟨⟨owner, i0⟩, rest⟩ <;>
      simp [processLine, hcontent, hnb, hclass, hfun, hstack]
  · intro a b hclass hfun hca hindent hactive
    have hvar := classAssignMatch_varMatch hca
    have hos := classAssignMatch_objectStart_none hca
    simp [processLine, hcontent, hnb, hclass, hfun, hca, hindent, hactive,
      hvar, hos]

/-- C4, witness: the amended theorem applied to the constructor-style
assignment line at indent 0 on the empty initial state. -/
theorem c4_witness :
    ((stripLineComment ("x = C()".data) false).1 = "x = C()".data ∧
     ("x = C()".data).all isJsSpace = false ∧
     classMatch ("x = C()".data) = none ∧
     funMatch ("x = C()".data) = none ∧
     classAssignMatch ("x = C()".data) = some ("x", "C") ∧
     getIndentLevel ("x = C()".data) = 0) ∧
    ((processLine initialState ("x = C()".data)).symbols =
      { emptySymbols with
          variableTypes := [("x", "C")], «variables» := ["x"] } ∧
     (processLine initialState ("x = C()".data)).activeObject = none) := by
  constructor
  · exact ⟨by decide, by decide, by decide, by decide, by decide, by decide⟩
  · have h := (c4_amended initialState ("x = C()".data) ("x = C()".data)
      (by decide) (by decide)).2.2 "x" "C" (by decide) (by decide)
      (by decide) (by decide) rfl
    refine ⟨?_, h.2⟩
    rw [h.1]
    decide

end Able

namespace Able

/-- C2, counterexample: the claim says every key up to the first
closing-brace line accrues to the object x; when a nested deeper line
starts a new object literal y, the key a on the following line is
recorded under y and x gets no property set at all, so the claim fails. -/
theorem c2_counterexample :
    mapFind "x"
      (parseSymbols "x = \x7b\n    y = \x7b\n        a: 1,\n    \x7d\n\x7d").objectProperties =
      none ∧
    mapFind "y"
      (parseSymbols "x = \x7b\n    y = \x7b\n        a: 1,\n    \x7d\n\x7d").objectProperties =
      some ["a"] := by
  decide

/-- C2, amended: while an object literal is active, each further line
adds every extracted key to the object's property set and the active
object is cleared at the first line containing a closing brace, or at a
dedent to at most the starting indent that is not itself an object start;
a line that is itself a new object-literal start replaces the active
object, so later keys accrue to the new variable instead.  On the spec's
example the collected keys are exactly host and port. -/
theorem c2_amended (st : ParseState) (line content : List Char)
    (x : String) (i0 : Nat)
    (hcontent : (stripLineComment line st.inBlockComment).1 = content)
    (hnb : content.all isJsSpace = false)
    (hactive : st.activeObject = some (x, i0))
    (hclass : classMatch content = none)
    (hfun : funMatch content = none) :
    (mapFind "config"
      (parseSymbols "config = \x7b\n    host: \"localhost\",\n    \"port\": 8080,\n\x7d").objectProperties =
      some ["host", "port"]) ∧
    ((processLine st line).symbols.objectProperties =
      (extractObjectKeys content).foldl
        (fun m k =>
          addSymbol m
            (match objectStartMatch content with
             | some y => y
             | none => x) k)
        st.symbols.objectProperties) ∧
    ((processLine st line).activeObject =
      (if content.contains '\x7d' then none
       else
         if decide (getIndentLevel content ≤
              (match objectStartMatch content with
               | some _ => getIndentLevel content
               | none => i0)) && (objectStartMatch content).isNone then none
         else
           some (match objectStartMatch content with
                 | some y => (y, getIndentLevel content)
                 | none => (x, i0)))) := by
  refine ⟨by decide, ?_, ?_⟩ <;>
  · rcases hos : objectStartMatch content with _ | y <;>
      rcases hca : classAssignMatch content with _ | ⟨a, b⟩ <;>
      rcases hvm : varMatch content with _ | v <;>
        simp [processLine, hcontent, hnb, hclass, hfun, hactive, hos, hca, hvm] <;>
        split_ifs <;> rfl

end Able

namespace Able

/-- C2, witness: the amended theorem applied with an active object for
config at indent 0 and the host line as the next line. -/
theorem c2_witness :
    ((stripLineComment ("    host: \"localhost\",".data) false).1 =
        "    host: \"localhost\",".data ∧
     ("    host: \"localhost\",".data).all isJsSpace = false ∧
     classMatch ("    host: \"localhost\",".data) = none ∧
     funMatch ("    host: \"localhost\",".data) = none) ∧
    ((processLine
        { symbols := emptySymbols, classStack := [],
          activeObject := some ("config", 0), inBlockComment := false }
        ("    host: \"localhost\",".data)).symbols.objectProperties =
      [("config", ["host"])] ∧
     (processLine
        { symbols := emptySymbols, classStack := [],
          activeObject := some ("config", 0), inBlockComment := false }
        ("    host: \"localhost\",".data)).activeObject =
      some ("config", 0)) := by
  constructor
  · exact ⟨by decide, by decide, by decide, by decide⟩
  · have h := c2_amended
      { symbols := emptySymbols, classStack := [],
        activeObject := some ("config", 0), inBlockComment := false }
      ("    host: \"localhost\",".data) ("    host: \"localhost\",".data)
      "config" 0 (by decide) (by decide) rfl (by decide) (by decide)
    exact ⟨by rw [h.2.1]; decide, by rw [h.2.2]; decide⟩

end Able

namespace Able

/-! ### Map and set helper lemmas -/

theorem mem_setAdd {x y : String} {s : List String} :
    x ∈ setAdd s y ↔ x ∈ s ∨ x = y := by
  rw [setAdd]
  by_cases h : y ∈ s
  · rw [if_pos h]
    constructor
    · exact Or.inl
    · rintro (hx | rfl)
      · exact hx
      · exact h
  · rw [if_neg h]
    simp

theorem mapFind_mapSet_self (k : String) (v : α) :
    ∀ m : List (String × α), mapFind k (mapSet k v m) = some v
  | [] => by simp [mapSet, mapFind]
  | (k', v') :: rest => by
      rw [mapSet]
      by_cases h : k' = k
      · rw [if_pos h]
        simp [mapFind]
      · rw [if_neg h, mapFind, if_neg h]
        exact mapFind_mapSet_self k v rest

theorem mapFind_append_of_none {k : String} (b : α) :
    ∀ {m : List (String × α)}, mapFind k m = none →
      mapFind k (m ++ [(k, b)]) = some b
  | [], _ => by simp [mapFind]
  | (k', v') :: rest, h => by
      rw [mapFind] at h
      by_cases hk : k' = k
      · rw [if_pos hk] at h
        exact absurd h (by simp)
      · rw [if_neg hk] at h
        rw [List.cons_append, mapFind, if_neg hk]
        exact mapFind_append_of_none b h

theorem addSymbol_find_self (m : List (String × List String)) (k v : String) :
    ∃ bucket, mapFind k (addSymbol m k v) = some bucket ∧ v ∈ bucket := by
  rw [addSymbol]
  rcases hf : mapFind k m with _ | bucket
  · exact ⟨setAdd [] v, mapFind_append_of_none _ hf, by simp [setAdd]⟩
  · exact ⟨setAdd bucket v, mapFind_mapSet_self k _ m,
      mem_setAdd.mpr (Or.inr rfl)⟩

/-! ### The class-stack invariant -/

theorem popWhile_entry_lt {k : Nat} {s : List (String × Nat)}
    (hs : StackOrdered s) : ∀ p ∈ popWhile k s, p.2 < k := by
  induction s with
  | nil => intro p hp; simp [popWhile] at hp
  | cons a t ih =>
      rw [StackOrdered, List.pairwise_cons] at hs
      intro p hp
      rw [popWhile] at hp
      by_cases h : k ≤ a.2
      · rw [if_pos h] at hp
        exact ih hs.2 p hp
      · rw [if_neg h] at hp
        rcases List.mem_cons.mp hp with rfl | hmem
        · omega
        · have := hs.1 p hmem
          omega

/-- C1: on a function-declaration line, every class whose declaration
indent is at least the line's indent is popped before the line is
classified; if a class remains on the stack its declaration indent is
strictly below the line's indent and the method is recorded in its
class-method bucket (functions untouched); if no class remains the name
is recorded among the top-level functions (class methods untouched). -/
theorem c1_method_attribution (st : ParseState) (line content : List Char)
    (name : String)
    (hcontent : (stripLineComment line st.inBlockComment).1 = content)
    (hnb : content.all isJsSpace = false)
    (hord : StackOrdered st.classStack)
    (hfun : funMatch content = some name) :
    (∀ p ∈ popWhile (getIndentLevel content) st.classStack,
        p.2 < getIndentLevel content) ∧
    (∀ p ∈ st.classStack, getIndentLevel content ≤ p.2 →
        p ∉ popWhile (getIndentLevel content) st.classStack) ∧
    (popWhile (getIndentLevel content) st.classStack = [] →
      (processLine st line).symbols.functions =
        setAdd st.symbols.functions name ∧
      (processLine st line).symbols.classMethods = st.symbols.classMethods) ∧
    (∀ owner i0 rest,
      popWhile (getIndentLevel content) st.classStack = (owner, i0) :: rest →
      i0 < getIndentLevel content ∧
      (processLine st line).symbols.classMethods =
        addSymbol st.symbols.classMethods owner name ∧
      (∃ bucket,
        mapFind owner (processLine st line).symbols.classMethods =
          some bucket ∧ name ∈ bucket) ∧
      (processLine st line).symbols.functions = st.symbols.functions) := by
  have hclass := funMatch_classMatch_none hfun
  have hpop := popWhile_entry_lt (k := getIndentLevel content) hord
  refine ⟨hpop, ?_, ?_, ?_⟩
  · intro p hp hile hmem
    have := hpop p hmem
    omega
  · intro hempty
    constructor <;> simp [processLine, hcontent, hnb, hclass, hfun, hempty]
  · intro owner i0 rest hstack
    have hcm : (processLine st line).symbols.classMethods =
        addSymbol st.symbols.classMethods owner name := by
      simp [processLine, hcontent, hnb, hclass, hfun, hstack]
    refine ⟨?_, hcm, ?_, ?_⟩
    · have := hpop (owner, i0) (by rw [hstack]; exact List.mem_cons_self _ _)
      simpa using this
    · rw [hcm]
      exact addSymbol_find_self _ owner name
    · simp [processLine, hcontent, hnb, hclass, hfun, hstack]

/-- C1, witness: the theorem applied to a method line at indent 1 under
an open class declared at indent 0. -/
theorem c1_witness :
    ((stripLineComment ("    fun name(this):".data) false).1 =
        "    fun name(this):".data ∧
     ("    fun name(this):".data).all isJsSpace = false ∧
     funMatch ("    fun name(this):".data) = some "name" ∧
     popWhile (getIndentLevel ("    fun name(this):".data)) [("User", 0)] =
       [("User", 0)]) ∧
    ((0 : Nat) < getIndentLevel ("    fun name(this):".data) ∧
     (processLine
        { symbols := emptySymbols, classStack := [("User", 0)],
          activeObject := none, inBlockComment := false }
        ("    fun name(this):".data)).symbols.classMethods =
       [("User", ["name"])] ∧
     (processLine
        { symbols := emptySymbols, classStack := [("User", 0)],
          activeObject := none, inBlockComment := false }
        ("    fun name(this):".data)).symbols.functions = []) := by
  constructor
  · exact ⟨by decide, by decide, by decide, by decide⟩
  · have h := (c1_method_attribution
      { symbols := emptySymbols, classStack := [("User", 0)],
        activeObject := none, inBlockComment := false }
      ("    fun name(this):".data) ("    fun name(this):".data) "name"
      (by decide) (by decide) (by simp [StackOrdered]) (by decide)).2.2.2
      "User" 0 [] (by decide)
    exact ⟨h.1, by rw [h.2.1]; decide, by rw [h.2.2.2]; rfl⟩

end Able

namespace Able

/-! ### Completion-item helper lemmas -/

theorem toItemsGo_kind {kind : ItemKind} {item : CompletionItem} :
    ∀ (seen items : List String),
      item ∈ toItemsGo kind seen items → item.kind = kind
  | seen, [], h => by simp [toItemsGo] at h
  | seen, x :: rest, h => by
      rw [toItemsGo] at h
      by_cases hx : x = "" ∨ x ∈ seen
      · rw [if_pos hx] at h
        exact toItemsGo_kind seen rest h
      · rw [if_neg hx] at h
        rcases List.mem_cons.mp h with rfl | hm
        · rfl
        · exact toItemsGo_kind (x :: seen) rest hm

theorem toItemsGo_ne_nil {kind : ItemKind} :
    ∀ (seen items : List String), (∃ x ∈ items, x ≠ "" ∧ x ∉ seen) →
      toItemsGo kind seen items ≠ []
  | seen, [], h => by simp at h
  | seen, x :: rest, h => by
      rw [toItemsGo]
      by_cases hx : x = "" ∨ x ∈ seen
      · rw [if_pos hx]
        apply toItemsGo_ne_nil seen rest
        obtain ⟨y, hy, hne, hns⟩ := h
        rcases List.mem_cons.mp hy with rfl | hm
        · rcases hx with h0 | hs
          · exact absurd h0 hne
          · exact absurd hs hns
        · exact ⟨y, hm, hne, hns⟩
      · rw [if_neg hx]
        simp

end Able

namespace Able

/-! ### Membership lemmas for the import completion set -/

theorem mem_foldl_setAdd {x : String} :
    ∀ (l : List String) (s : List String),
      (x ∈ l.foldl setAdd s ↔ x ∈ s ∨ x ∈ l)
  | [], s => by simp
  | y :: rest, s => by
      rw [List.foldl_cons, mem_foldl_setAdd rest (setAdd s y)]
      rw [mem_setAdd]
      simp only [List.mem_cons]
      tauto

theorem mem_foldl_setAdd_fst {x : String} :
    ∀ (l : List (String × SymbolSet)) (s : List String),
      (x ∈ l.foldl (fun acc e => setAdd acc e.1) s ↔
        x ∈ s ∨ ∃ e ∈ l, e.1 = x)
  | [], s => by simp
  | y :: rest, s => by
      rw [List.foldl_cons, mem_foldl_setAdd_fst rest (setAdd s y.1)]
      rw [mem_setAdd]
      constructor
      · rintro ((h | h) | ⟨e, he, hx⟩)
        · exact Or.inl h
        · exact Or.inr ⟨y, List.mem_cons_self _ _, h.symm⟩
        · exact Or.inr ⟨e, List.mem_cons_of_mem _ he, hx⟩
      · rintro (h | ⟨e, he, hx⟩)
        · exact Or.inl (Or.inl h)
        · rcases List.mem_cons.mp he with rfl | hm
          · exact Or.inl (Or.inr hx.symm)
          · exact Or.inr ⟨e, hm, hx⟩

theorem toItemsGo_mem_spec {kind : ItemKind} {item : CompletionItem} :
    ∀ (seen items : List String), item ∈ toItemsGo kind seen items →
      item.label ∈ items ∧ item.label ∉ seen ∧ item.label ≠ "" ∧
        item.kind = kind
  | seen, [], h => by simp [toItemsGo] at h
  | seen, x :: rest, h => by
      rw [toItemsGo] at h
      by_cases hx : x = "" ∨ x ∈ seen
      · rw [if_pos hx] at h
        obtain ⟨h1, h2, h3, h4⟩ := toItemsGo_mem_spec seen rest h
        exact ⟨List.mem_cons_of_mem _ h1, h2, h3, h4⟩
      · rw [if_neg hx] at h
        push_neg at hx
        rcases List.mem_cons.mp h with rfl | hm
        · exact ⟨List.mem_cons_self _ _, hx.2, hx.1, rfl⟩
        · obtain ⟨h1, h2, h3, h4⟩ := toItemsGo_mem_spec (x :: seen) rest hm
          exact ⟨List.mem_cons_of_mem _ h1,
            fun hs => h2 (List.mem_cons_of_mem _ hs), h3, h4⟩

theorem toItemsGo_mem_of {kind : ItemKind} {lab : String} :
    ∀ (seen items : List String), lab ∈ items → lab ∉ seen → lab ≠ "" →
      (⟨lab, kind⟩ : CompletionItem) ∈ toItemsGo kind seen items
  | seen, [], h, _, _ => by simp at h
  | seen, x :: rest, h, hns, hne => by
      rw [toItemsGo]
      by_cases hx : x = "" ∨ x ∈ seen
      · rw [if_pos hx]
        rcases List.mem_cons.mp h with rfl | hm
        · rcases hx with h0 | hs
          · exact absurd h0 hne
          · exact absurd hs hns
        · exact toItemsGo_mem_of seen rest hm hns hne
      · rw [if_neg hx]
        by_cases hlx : lab = x
        · subst hlx
          exact List.mem_cons_self _ _
        · rcases List.mem_cons.mp h with heq | hm
          · exact absurd heq hlx
          · refine List.mem_cons_of_mem _
              (toItemsGo_mem_of (x :: seen) rest hm ?_ hne)
            intro hin
            rcases List.mem_cons.mp hin with heq | hs
            · exact hlx heq
            · exact hns hs

theorem importMatch_first_char {l : List Char} {p : String}
    (h : importMatch l = some p) : ∃ t, dropSpaces l = 'i' :: t := by
  rw [importMatch] at h
  rcases hm : matchLit ['i', 'm', 'p', 'o', 'r', 't'] (dropSpaces l) with _ | l2
  · rw [hm] at h
    exact absurd h (by simp)
  · obtain ⟨t, ht, _⟩ := matchLit_some_cons hm
    exact ⟨t, ht⟩

theorem importMatch_decorator_none {l : List Char} {p : String}
    (h : importMatch l = some p) : decoratorMatch l = none := by
  obtain ⟨t, ht⟩ := importMatch_first_char h
  simp [decoratorMatch, ht]

/-- C7, counterexample: the line typing import of a dotted path ending in
a dot is an import-context line by the claim, but the member-access test
runs first; with a document entry giving member candidates for the
identifier before the dot, the handler returns a method item rather than
the module union (here empty). -/
theorem c7_counterexample :
    importMatch ("import ma.".data) = some "ma." ∧
    onCompletion ("import ma.".data)
      (some ⟨[], [], [], [("C", ["m"])], [("ma", "C")], []⟩) [] =
      [{ label := "m", kind := ItemKind.methodKind }] ∧
    getImportCompletions "ma." [] = [] := by
  decide

/-- C7, amended: on an import-context line, provided the member-access
test contributes no candidate (in particular whenever the line does not
end in an identifier followed by a dot), the returned list is exactly the
union of builtin module names and indexed module names filtered by the
typed prefix, every item tagged as a module; the spec's scenario with
prefix ma returns exactly math and mapper.utils. -/
theorem c7_amended (lineText : List Char) (entry : Option SymbolSet)
    (index : ModuleIndex) (pfx : String)
    (himp : importMatch lineText = some pfx)
    (hmem : (memberTarget lineText).elim True
      (fun t => getMemberCompletions t entry = [])) :
    onCompletion lineText entry index = getImportCompletions pfx index ∧
    (∀ item ∈ getImportCompletions pfx index,
      item.kind = ItemKind.moduleKind) ∧
    (∀ lab : String, lab ≠ "" →
      (({ label := lab, kind := ItemKind.moduleKind } : CompletionItem) ∈
          getImportCompletions pfx index ↔
        (lab ∈ BUILTIN_MODULES ∨ ∃ e ∈ index, e.1 = lab) ∧
          strStarts lab pfx = true)) ∧
    getImportCompletions "ma" [("mapper.utils", emptySymbols)] =
      [{ label := "math", kind := ItemKind.moduleKind },
       { label := "mapper.utils", kind := ItemKind.moduleKind }] := by
  have hdec := importMatch_decorator_none himp
  refine ⟨?_, ?_, ?_, by decide⟩
  · rcases hmt : memberTarget lineText with _ | t
    · simp [onCompletion, hmt, hdec, himp]
    · rw [hmt] at hmem
      simp only [Option.elim] at hmem
      simp [onCompletion, hmt, hmem, hdec, himp]
  · intro item hitem
    exact (toItemsGo_mem_spec _ _ hitem).2.2.2
  · intro lab hlab
    rw [getImportCompletions]
    constructor
    · intro hmemb
      obtain ⟨h1, _, _, _⟩ := toItemsGo_mem_spec _ _ hmemb
      rw [List.mem_filter] at h1
      have hsrc := (mem_foldl_setAdd_fst index _).mp h1.1
      rw [mem_foldl_setAdd] at hsrc
      refine ⟨?_, h1.2⟩
      rcases hsrc with (hnil | hb) | hi
      · exact absurd hnil (by simp)
      · exact Or.inl hb
      · exact Or.inr hi
    · rintro ⟨hsrc, hpre⟩
      apply toItemsGo_mem_of
      · rw [List.mem_filter]
        refine ⟨?_, hpre⟩
        rw [mem_foldl_setAdd_fst index _]
        rcases hsrc with hb | hi
        · exact Or.inl ((mem_foldl_setAdd _ _).mpr (Or.inr hb))
        · exact Or.inr hi
      · simp
      · exact hlab

/-- C7, witness: the amended theorem applied to the scenario line that
types the import of the prefix ma with one indexed workspace module. -/
theorem c7_witness :
    (importMatch ("import ma".data) = some "ma" ∧
     memberTarget ("import ma".data) = none) ∧
    onCompletion ("import ma".data) none
      [("mapper.utils", emptySymbols)] =
      [{ label := "math", kind := ItemKind.moduleKind },
       { label := "mapper.utils", kind := ItemKind.moduleKind }] := by
  constructor
  · exact ⟨by decide, by decide⟩
  · have h := c7_amended ("import ma".data) none
      [("mapper.utils", emptySymbols)] "ma" (by decide)
      (by rw [show memberTarget ("import ma".data) = none from by decide]
          exact trivial)
    rw [h.1]
    decide

end Able

namespace Able

/-! ### Structure of a successful from-import match -/

theorem fromMatch_parts {line : List Char} {M L : String}
    (h : fromMatch line = some (M, L)) :
    ∃ l6 l7, l6 <:+ line ∧ matchSpaces1 l6 = some l7 ∧
      l7.all isListChar = true ∧ (∃ t, dropSpaces line = 'f' :: t) := by
  rw [fromMatch] at h
  split at h
  · exact absurd h (by simp)
  next l2 h1 =>
    split at h
    · exact absurd h (by simp)
    next l3 h2 =>
      split at h
      · exact absurd h (by simp)
      · split at h
        · exact absurd h (by simp)
        next l5 h3 =>
          split at h
          · exact absurd h (by simp)
          next l6 h4 =>
            split at h
            · exact absurd h (by simp)
            next l7 h5 =>
              split at h
              next hall =>
                have s1 : l6 <:+ l5 := matchLit_suffix h4
                have s2 : l5 <:+ l3.dropWhile isModChar :=
                  matchSpaces1_suffix h3
                have s3 : l3.dropWhile isModChar <:+ l3 :=
                  List.dropWhile_suffix _
                have s4 : l3 <:+ l2 := matchSpaces1_suffix h2
                have s5 : l2 <:+ dropSpaces line := matchLit_suffix h1
                have s6 : dropSpaces line <:+ line := dropSpaces_suffix line
                obtain ⟨t, ht, _⟩ := matchLit_some_cons h1
                exact ⟨l6, l7,
                  s1.trans (s2.trans (s3.trans (s4.trans (s5.trans s6)))),
                  h5, hall, t, ht⟩
              next => exact absurd h (by simp)

theorem fromMatch_getLast {line : List Char} {M L : String}
    (h : fromMatch line = some (M, L)) :
    ∃ ch, line.getLast? = some ch ∧ isListChar ch = true := by
  obtain ⟨l6, l7, hsuf, h5, hall, _⟩ := fromMatch_parts h
  obtain ⟨c6, t6, heq6, hc6, hl7⟩ := matchSpaces1_some h5
  rcases hl7eq : l7 with _ | ⟨d, t7⟩
  · have hnil : dropSpaces t6 = [] := by rw [← hl7, hl7eq]
    have hall6 : ∀ x ∈ t6, isJsSpace x = true :=
      List.dropWhile_eq_nil_iff.mp hnil
    obtain ⟨pre, hpre⟩ := hsuf
    rw [heq6] at hpre
    have hlast : line.getLast? = (c6 :: t6).getLast? := by
      rw [← hpre]
      exact List.getLast?_append_of_ne_nil pre (by simp)
    have hne : (c6 :: t6) ≠ [] := by simp
    have hg := List.getLast?_eq_getLast (c6 :: t6) hne
    have hchmem := List.getLast_mem hne
    have hsp : isJsSpace ((c6 :: t6).getLast hne) = true := by
      rcases List.mem_cons.mp hchmem with hh | hm
      · rw [hh]; exact hc6
      · exact hall6 _ hm
    refine ⟨(c6 :: t6).getLast hne, by rw [hlast, hg], ?_⟩
    rw [isListChar, hsp]
    simp
  · have hsufl7 : l7 <:+ line := by
      rw [heq6] at hsuf
      have hins : l7 <:+ c6 :: t6 := by
        rw [hl7]
        exact (dropSpaces_suffix t6).trans (List.suffix_cons c6 t6)
      exact hins.trans hsuf
    obtain ⟨pre2, hpre2⟩ := hsufl7
    have hne : l7 ≠ [] := by rw [hl7eq]; simp
    have hlast : line.getLast? = l7.getLast? := by
      rw [← hpre2]
      exact List.getLast?_append_of_ne_nil pre2 hne
    have hg := List.getLast?_eq_getLast l7 hne
    refine ⟨l7.getLast hne, by rw [hlast, hg], ?_⟩
    exact (List.all_eq_true.mp hall) _ (List.getLast_mem hne)

/-- A line whose last character is not a dot is not a member access. -/
theorem memberTarget_eq_none_of {line : List Char}
    (h : line.reverse.head? ≠ some '.') : memberTarget line = none := by
  rcases hr : line.reverse with _ | ⟨a, t⟩
  · rw [memberTarget, hr]
  · rw [hr] at h
    have ha : a ≠ '.' := by simpa using h
    rw [memberTarget, hr]
    split
    next r heq =>
      rw [List.cons.injEq] at heq
      exact absurd heq.1 ha
    next => rfl

theorem fromMatch_memberTarget_none {line : List Char} {M L : String}
    (h : fromMatch line = some (M, L)) : memberTarget line = none := by
  obtain ⟨ch, hlast, hlist⟩ := fromMatch_getLast h
  have hne : ch ≠ '.' := by
    intro hdot
    rw [hdot] at hlist
    exact absurd hlist (by decide)
  apply memberTarget_eq_none_of
  rw [List.head?_reverse, hlast]
  simp [hne]

theorem fromMatch_decorator_none {line : List Char} {M L : String}
    (h : fromMatch line = some (M, L)) : decoratorMatch line = none := by
  obtain ⟨_, _, _, _, _, t, ht⟩ := fromMatch_parts h
  simp [decoratorMatch, ht]

theorem fromMatch_import_none {line : List Char} {M L : String}
    (h : fromMatch line = some (M, L)) : importMatch line = none := by
  obtain ⟨_, _, _, _, _, t, ht⟩ := fromMatch_parts h
  simp [importMatch, ht, matchLit]

/-- C9: a from-import completion request for a module with no entry in
the index returns the empty list: no fallback to builtin symbols or to
the generic candidate set (builtin module names have no indexed symbol
table, so this covers them). -/
theorem c9_from_import_unindexed (lineText : List Char)
    (entry : Option SymbolSet) (index : ModuleIndex) (M L : String)
    (hfrom : fromMatch lineText = some (M, L))
    (hnoentry : mapFind M index = none) :
    onCompletion lineText entry index = [] := by
  have hmem := fromMatch_memberTarget_none hfrom
  have hdec := fromMatch_decorator_none hfrom
  have himp := fromMatch_import_none hfrom
  simp [onCompletion, hmem, hdec, himp, hfrom, getFromImportCompletions,
    getModuleExports, hnoentry]

/-- C9, witness: the theorem applied to a from-import line naming the
builtin module math, which is absent from the (empty) index. -/
theorem c9_witness :
    (fromMatch ("from math import s".data) = some ("math", "s") ∧
     mapFind "math" ([] : ModuleIndex) = none) ∧
    onCompletion ("from math import s".data) none [] = [] := by
  constructor
  · exact ⟨by decide, rfl⟩
  · exact c9_from_import_unindexed ("from math import s".data) none []
      "math" "s" (by decide) rfl

end Able

namespace Able

/-! ### Parsed tables never contain empty names -/

theorem asString_cons_ne_empty (c : Char) (t : List Char) :
    (c :: t).asString ≠ "" := by
  intro h
  have h2 := congrArg String.data h
  simp [List.asString] at h2

theorem asString_ne_empty_of_ne_nil {l : List Char} (h : l ≠ []) :
    l.asString ≠ "" := by
  cases l with
  | nil => exact absurd rfl h
  | cons c t => exact asString_cons_ne_empty c t

theorem matchIdent_name_ne {l : List Char} {n : String} {r : List Char}
    (h : matchIdent l = some (n, r)) : n ≠ "" := by
  cases l with
  | nil => simp [matchIdent] at h
  | cons c t =>
      rw [matchIdent] at h
      by_cases hc : isIdStart c
      · rw [if_pos (by simpa using hc)] at h
        simp only [Option.some.injEq, Prod.mk.injEq] at h
        rw [← h.1]
        exact asString_cons_ne_empty _ _
      · rw [if_neg (by simpa using hc)] at h
        exact absurd h (by simp)

theorem funMatch_name_ne {l : List Char} {n : String}
    (h : funMatch l = some n) : n ≠ "" := by
  simp only [funMatch] at h
  split at h
  next r3 hf =>
    split at h
    next r4 hs =>
      rcases hmi : matchIdent r4 with _ | ⟨n1, r1⟩
      · rw [hmi] at h
        exact absurd h (by simp)
      · rw [hmi] at h
        simp only [Option.map_some', Option.some.injEq] at h
        rw [← h]
        exact matchIdent_name_ne hmi
    next => exact absurd h (by simp)
  next => exact absurd h (by simp)

theorem idKeyAt_ne {l : List Char} {k : String} {r : List Char}
    (h : idKeyAt l = some (k, r)) : k ≠ "" := by
  cases l with
  | nil => simp [idKeyAt] at h
  | cons c t =>
      rw [idKeyAt] at h
      by_cases hc : isIdStart c
      · rw [if_pos (by simpa using hc)] at h
        split at h
        · simp only [Option.some.injEq, Prod.mk.injEq] at h
          rw [← h.1]
          exact asString_cons_ne_empty _ _
        · exact absurd h (by simp)
      · rw [if_neg (by simpa using hc)] at h
        exact absurd h (by simp)

theorem strKeyAt_ne {l : List Char} {k : String} {r : List Char}
    (h : strKeyAt l = some (k, r)) : k ≠ "" := by
  cases l with
  | nil => simp [strKeyAt] at h
  | cons c t =>
      rw [strKeyAt] at h
      by_cases hc : c = '"'
      · rw [if_pos hc] at h
        split at h
        next r2 heq =>
          split at h
          · exact absurd h (by simp)
          next hne =>
            split at h
            next r3 heq2 =>
              simp only [Option.some.injEq, Prod.mk.injEq] at h
              rw [← h.1]
              exact asString_ne_empty_of_ne_nil hne
            next => exact absurd h (by simp)
        next => exact absurd h (by simp)
      · rw [if_neg hc] at h
        exact absurd h (by simp)

theorem scanIdKeys_ne {k : String} :
    ∀ (fuel : Nat) (l : List Char), k ∈ scanIdKeys fuel l → k ≠ ""
  | 0, l, h => by simp [scanIdKeys] at h
  | fuel + 1, [], h => by simp [scanIdKeys] at h
  | fuel + 1, c :: rest, h => by
      rw [scanIdKeys] at h
      split at h
      next k2 after heq =>
        rcases List.mem_cons.mp h with rfl | hm
        · exact idKeyAt_ne heq
        · exact scanIdKeys_ne fuel after hm
      next => exact scanIdKeys_ne fuel rest h

theorem scanStrKeys_ne {k : String} :
    ∀ (fuel : Nat) (l : List Char), k ∈ scanStrKeys fuel l → k ≠ ""
  | 0, l, h => by simp [scanStrKeys] at h
  | fuel + 1, [], h => by simp [scanStrKeys] at h
  | fuel + 1, c :: rest, h => by
      rw [scanStrKeys] at h
      split at h
      next k2 after heq =>
        rcases List.mem_cons.mp h with rfl | hm
        · exact strKeyAt_ne heq
        · exact scanStrKeys_ne fuel after hm
      next => exact scanStrKeys_ne fuel rest h

theorem extractObjectKeys_ne {t : List Char} {k : String}
    (h : k ∈ extractObjectKeys t) : k ≠ "" := by
  rw [extractObjectKeys] at h
  rcases List.mem_append.mp h with h1 | h1
  · exact scanIdKeys_ne _ _ h1
  · exact scanStrKeys_ne _ _ h1

theorem mapFind_mem {k : String} {b : α} :
    ∀ {m : List (String × α)}, mapFind k m = some b → (k, b) ∈ m
  | [], h => by simp [mapFind] at h
  | (k', v') :: rest, h => by
      rw [mapFind] at h
      by_cases hk : k' = k
      · rw [if_pos hk] at h
        cases h
        subst hk
        exact List.mem_cons_self _ _
      · rw [if_neg hk] at h
        exact List.mem_cons_of_mem _ (mapFind_mem h)

theorem mem_mapSet {k : String} {v : α} {e : String × α} :
    ∀ {m : List (String × α)}, e ∈ mapSet k v m → e = (k, v) ∨ e ∈ m
  | [], h => by
      rw [mapSet] at h
      exact Or.inl (List.mem_singleton.mp h)
  | (k', v') :: rest, h => by
      rw [mapSet] at h
      by_cases hk : k' = k
      · rw [if_pos hk] at h
        rcases List.mem_cons.mp h with rfl | hm
        · exact Or.inl rfl
        · exact Or.inr (List.mem_cons_of_mem _ hm)
      · rw [if_neg hk] at h
        rcases List.mem_cons.mp h with rfl | hm
        · exact Or.inr (List.mem_cons_self _ _)
        · rcases mem_mapSet hm with h1 | h1
          · exact Or.inl h1
          · exact Or.inr (List.mem_cons_of_mem _ h1)

theorem addSymbol_preserves {m : List (String × List String)} {k v : String}
    (hm : NonEmptyBuckets m) (hv : v ≠ "") :
    NonEmptyBuckets (addSymbol m k v) := by
  rw [addSymbol]
  rcases hf : mapFind k m with _ | bucket
  · intro e he w hw
    rcases List.mem_append.mp he with h1 | h1
    · exact hm e h1 w hw
    · rcases List.mem_singleton.mp h1 with rfl
      have hw2 : w ∈ setAdd [] v := hw
      rcases mem_setAdd.mp hw2 with h2 | rfl
      · simp at h2
      · exact hv
  · intro e he w hw
    rcases mem_mapSet he with rfl | h1
    · have hw2 : w ∈ setAdd bucket v := hw
      rcases mem_setAdd.mp hw2 with h2 | rfl
      · exact hm _ (mapFind_mem hf) w h2
      · exact hv
    · exact hm e h1 w hw

theorem foldl_addSymbol_preserves {name : String} :
    ∀ (keys : List String) (m : List (String × List String)),
      NonEmptyBuckets m → (∀ k ∈ keys, k ≠ "") →
      NonEmptyBuckets (keys.foldl (fun acc k => addSymbol acc name k) m)
  | [], m, hm, _ => hm
  | k :: rest, m, hm, hk => by
      rw [List.foldl_cons]
      exact foldl_addSymbol_preserves rest _
        (addSymbol_preserves hm (hk k (List.mem_cons_self _ _)))
        (fun k2 h2 => hk k2 (List.mem_cons_of_mem _ h2))

theorem processLine_preserves {st : ParseState} {line : List Char}
    (h : TableNonEmpty st.symbols) :
    TableNonEmpty (processLine st line).symbols := by
  set content := (stripLineComment line st.inBlockComment).1 with hcdef
  by_cases hb : content.all isJsSpace = true
  · simp [processLine, ← hcdef, hb]
    exact h
  · rcases hcl : classMatch content with _ | n
    · rcases hf : funMatch content with _ | n
      · rcases hca : classAssignMatch content with _ | ⟨a, b⟩ <;>
        rcases hos : objectStartMatch content with _ | y <;>
        rcases hact : st.activeObject with _ | ⟨x, i0⟩ <;>
        rcases hvm : varMatch content with _ | v <;>
          simp [processLine, ← hcdef, hb, hcl, hf, hca, hos, hact, hvm] <;>
          (try split_ifs) <;>
            first
            | exact h
            | exact ⟨h.1, foldl_addSymbol_preserves _ _ h.2
                (fun k hk => extractObjectKeys_ne hk)⟩
      · rcases hstack : popWhile (getIndentLevel content) st.classStack with
          _ | ⟨⟨owner, i0⟩, rest⟩ <;>
          simp [processLine, ← hcdef, hb, hcl, hf, hstack] <;>
          first
          | exact h
          | exact ⟨addSymbol_preserves h.1 (funMatch_name_ne hf), h.2⟩
    · simp [processLine, ← hcdef, hb, hcl]
      exact h

theorem parseSymbols_nonempty (text : String) :
    TableNonEmpty (parseSymbols text) := by
  rw [parseSymbols]
  have hfold : ∀ (lines : List (List Char)) (st : ParseState),
      TableNonEmpty st.symbols →
      TableNonEmpty ((lines.foldl processLine st).symbols) := by
    intro lines
    induction lines with
    | nil => exact fun st h => h
    | cons l rest ih => exact fun st h => ih _ (processLine_preserves h)
  refine hfold _ initialState ⟨?_, ?_⟩ <;> intro e he <;>
    simp [initialState, emptySymbols] at he

end Able

namespace Able

/-- Each member-candidate list is either empty or exactly one bucket of
the symbol table. -/
theorem memberCandidates_sources (syms : SymbolSet) (t : String) :
    ((getMemberCandidates syms t).1 = [] ∨
      ∃ c, mapFind c syms.classMethods = some (getMemberCandidates syms t).1) ∧
    ((getMemberCandidates syms t).2 = [] ∨
      mapFind t syms.objectProperties = some (getMemberCandidates syms t).2) := by
  simp only [getMemberCandidates]
  constructor
  · split
    next c heq =>
      rcases hf : mapFind c syms.classMethods with _ | b
      · left
        simp [hf]
      · right
        exact ⟨c, by simp [hf]⟩
    next => left; rfl
  · rcases hf : mapFind t syms.objectProperties with _ | b
    · left
      simp [hf]
    · right
      simp [hf]

theorem candidates_have_nonempty_names {syms : SymbolSet} {t : String}
    (hs : TableNonEmpty syms)
    (hcand : (getMemberCandidates syms t).1 ≠ [] ∨
             (getMemberCandidates syms t).2 ≠ []) :
    (∃ x ∈ (getMemberCandidates syms t).1, x ≠ "") ∨
    (∃ x ∈ (getMemberCandidates syms t).2, x ≠ "") := by
  obtain ⟨hm, hp⟩ := memberCandidates_sources syms t
  rcases hcand with hc | hc
  · left
    rcases hm with h0 | ⟨c, hfind⟩
    · exact absurd h0 hc
    · obtain ⟨x, hx⟩ := List.exists_mem_of_ne_nil _ hc
      exact ⟨x, hx, hs.1 _ (mapFind_mem hfind) x hx⟩
  · right
    rcases hp with h0 | hfind
    · exact absurd h0 hc
    · obtain ⟨x, hx⟩ := List.exists_mem_of_ne_nil _ hc
      exact ⟨x, hx, hs.2 _ (mapFind_mem hfind) x hx⟩

/-- C5: when the line ends in a member access and resolving the target
against the current document's parsed module entry yields at least one
method candidate or at least one property candidate, the returned
completion list is exactly the member candidates and every returned item
is tagged method or property; no generic keyword, builtin or workspace
symbol is included. -/
theorem c5_member_no_fallback (lineText : List Char) (docText : String)
    (index : ModuleIndex) (t : String)
    (hmem : memberTarget lineText = some t)
    (hcand : (getMemberCandidates (parseSymbols docText) t).1 ≠ [] ∨
             (getMemberCandidates (parseSymbols docText) t).2 ≠ []) :
    onCompletion lineText (some (parseSymbols docText)) index =
      getMemberCompletions t (some (parseSymbols docText)) ∧
    ∀ item ∈ onCompletion lineText (some (parseSymbols docText)) index,
      item.kind = ItemKind.methodKind ∨ item.kind = ItemKind.propertyKind := by
  have hcand2 :=
    candidates_have_nonempty_names (parseSymbols_nonempty docText) hcand
  have hne : getMemberCompletions t (some (parseSymbols docText)) ≠ [] := by
    rw [getMemberCompletions]
    rcases hcand2 with ⟨x, hx, hxe⟩ | ⟨x, hx, hxe⟩ <;> intro hap <;>
      rcases List.append_eq_nil.mp hap with ⟨h1, h2⟩
    · exact toItemsGo_ne_nil [] _ ⟨x, hx, hxe, by simp⟩ h1
    · exact toItemsGo_ne_nil [] _ ⟨x, hx, hxe, by simp⟩ h2
  have hlen : 0 < (getMemberCompletions t (some (parseSymbols docText))).length :=
    List.length_pos.mpr hne
  have hres : onCompletion lineText (some (parseSymbols docText)) index =
      getMemberCompletions t (some (parseSymbols docText)) := by
    simp [onCompletion, hmem, hlen]
  refine ⟨hres, ?_⟩
  intro item hitem
  rw [hres, getMemberCompletions] at hitem
  rcases List.mem_append.mp hitem with hm | hm
  · exact Or.inl (toItemsGo_kind _ _ hm)
  · exact Or.inr (toItemsGo_kind _ _ hm)

/-- C5, witness: the theorem applied to a member access on user against
the parsed scenario document, whose class provides one method. -/
theorem c5_witness :
    (memberTarget ("user.".data) = some "user" ∧
     (getMemberCandidates
        (parseSymbols "class User:\n    fun name(this):\n        return 1\n\nuser = User()")
        "user").1 ≠ []) ∧
    onCompletion ("user.".data)
      (some (parseSymbols
        "class User:\n    fun name(this):\n        return 1\n\nuser = User()")) [] =
      [{ label := "name", kind := ItemKind.methodKind }] := by
  constructor
  · exact ⟨by decide, by decide⟩
  · have h := c5_member_no_fallback ("user.".data)
      "class User:\n    fun name(this):\n        return 1\n\nuser = User()"
      [] "user" (by decide) (Or.inl (by decide))
    rw [h.1]
    decide

end Able
